import Mathlib

/-!
Verification development for the pumpdotfun-go-sdk bonding-curve quote engine
and trade-instruction assembler.

The Go sources are shallowly embedded as follows:
- Go `math/big.Int` values become `Int`; `big.Int.Div` is Euclidean division,
  which is `Int.ediv`, the `/` of `Int` in Lean; a Go runtime panic
  (division by zero) is modelled by an `Option` result of `none`.
- Go `uint64` values become `Nat` known to be below `2 ^ 64`; the Go
  conversion `int64(x)` of a `uint64` is `int64OfUint64`.
- Go `float64` and `math/big.Float` values are dyadic rationals `GoFloat`
  (a mantissa and a binary exponent); every float operation rounds its
  exact rational result to the operand precision, nearest, ties to even,
  exactly as IEEE-754 and `math/big.Float` do.  `big.Float.Int` truncates
  toward zero, which is `Int.tdiv` on the dyadic representation.
- The ledger client (RPC) is an explicit environment: the spec declares its
  lookup interface as `rawBytes | NotFound`, so an account lookup outcome is
  a `Bool` (found or not), a balance is a `Nat`, fetched account data is a
  `List Nat` of bytes.
-/

set_option maxRecDepth 4000

namespace PumpSdk

/-- Fuel-driven helper for `bitLen`; the fuel is an upper bound on the
argument, so the fuel never runs out. -/
def bitLenAux : Nat → Nat → Nat
  | 0, _ => 0
  | fuel + 1, n => if n = 0 then 0 else bitLenAux fuel (n / 2) + 1

/-- The binary length of a natural number (Go `big.Int.BitLen`): 0 for 0,
otherwise the position of the highest set bit plus one.  Defined by fuel so
that it reduces inside the kernel; it agrees with `Nat.size`. -/
def bitLen (n : Nat) : Nat := bitLenAux n n

/-- Dyadic rational modelling a Go `float64` value or a `math/big.Float`
value: the number represented is `mant * 2 ^ exp`. -/
structure GoFloat where
  mant : Int
  exp : Int
  deriving DecidableEq, Repr

/-- Rounds the rational `n / d` to the nearest integer, ties to even
(`d > 0` intended). -/
def divRoundNE (n d : Nat) : Nat :=
  let q := n / d
  let r := n % d
  if 2 * r < d then q
  else if d < 2 * r then q + 1
  else if q % 2 = 0 then q else q + 1

/-- Multiplies the rational `n / d` by `2 ^ s`, returning a numerator and
denominator pair. -/
def shiftRat (n d : Nat) (s : Int) : Nat × Nat :=
  if 0 ≤ s then (n <<< s.toNat, d) else (n, d <<< (-s).toNat)

/-- Tests whether `n / d` is at least `2 ^ t`. -/
def ratGePow2 (n d : Nat) (t : Int) : Bool :=
  if 0 ≤ t then d <<< t.toNat ≤ n else d ≤ n <<< (-t).toNat

/-- The binary exponent of `n / d`: the unique `E` with
`2 ^ E ≤ n / d < 2 ^ (E + 1)`, for positive `n` and `d`. -/
def ratExp (n d : Nat) : Int :=
  let t : Int := (bitLen n : Int) - (bitLen d : Int)
  if ratGePow2 n d t then t else t - 1

/-- Rounds the positive rational `n / d` to `p` significant bits, nearest,
ties to even: the rounding applied by IEEE-754 `float64` operations and by
`math/big.Float` operations at precision `p`. -/
def roundRatNE (p : Nat) (n d : Nat) : GoFloat :=
  let E := ratExp n d
  let e := E - (p : Int) + 1
  let nd := shiftRat n d (-e)
  ⟨(divRoundNE nd.1 nd.2 : Int), e⟩

/-- Rounds a dyadic value to `p` significant bits, nearest, ties to even. -/
def roundDyadic (p : Nat) (f : GoFloat) : GoFloat :=
  if f.mant = 0 then ⟨0, 0⟩
  else
    let n := f.mant.natAbs
    let b := bitLen n
    if b ≤ p then f
    else
      let s := b - p
      let m := divRoundNE n (2 ^ s)
      ⟨if f.mant < 0 then -(m : Int) else (m : Int), f.exp + (s : Int)⟩

/-- Go conversion of an unsigned integer to `float64`: rounds to 53 bits. -/
def float64OfNat (n : Nat) : GoFloat :=
  if n = 0 then ⟨0, 0⟩ else roundRatNE 53 n 1

/-- Go `float64` division: the exact quotient, correctly rounded to 53
significant bits (the divisor is never zero in the embedded code). -/
def GoFloat.fdiv (a b : GoFloat) : GoFloat :=
  if a.mant = 0 then ⟨0, 0⟩
  else
    let f := roundRatNE 53 a.mant.natAbs b.mant.natAbs
    ⟨a.mant.sign * b.mant.sign * f.mant, f.exp + a.exp - b.exp⟩

/-- Go `float64` subtraction: the exact (dyadic) difference, rounded to 53
significant bits. -/
def GoFloat.fsub (a b : GoFloat) : GoFloat :=
  let e := min a.exp b.exp
  roundDyadic 53 ⟨a.mant * 2 ^ (a.exp - e).toNat - b.mant * 2 ^ (b.exp - e).toNat, e⟩

/-- The rational value represented by a `GoFloat`. -/
def GoFloat.val (f : GoFloat) : ℚ := (f.mant : ℚ) * (2 : ℚ) ^ f.exp

/-- Truncation of a dyadic value toward zero, as `math/big.Float.Int` does. -/
def truncDyadic (f : GoFloat) : Int :=
  if 0 ≤ f.exp then f.mant * 2 ^ f.exp.toNat
  else Int.tdiv f.mant (2 ^ (-f.exp).toNat)

/-- The final slippage step shared by `calculateBuyQuote` and
`calculateSellQuote` in the Go sources:
`new(big.Float).SetInt(a)` (precision `max 64 (bitlen a)`, exact), times the
53-bit multiplier, rounded to the larger precision `max 64 (bitlen a)`,
then `big.Float.Int` truncation toward zero. -/
def bigFloatMulTrunc (a : Int) (m : GoFloat) : Int :=
  truncDyadic (roundDyadic (max 64 (bitLen a.natAbs)) ⟨a * m.mant, m.exp⟩)

/-- Go conversion `int64(n)` of a `uint64` value `n < 2 ^ 64`
(twos-complement reinterpretation). -/
def int64OfUint64 (n : Nat) : Int :=
  if n < 2 ^ 63 then (n : Int) else (n : Int) - 2 ^ 64

/-- Go `math/big.Int.Uint64`: the low 64 bits of the absolute value. -/
def bigIntUint64 (x : Int) : Nat := x.natAbs % 2 ^ 64

/-- BondingCurveData holds the relevant information decoded from the
on-chain data (file `bonding-curve.go`); the three reserve fields are
`big.Int` values set from `uint64` words. -/
structure BondingCurveData where
  realTokenReserves : Int
  virtualTokenReserves : Int
  virtualSolReserves : Int
  deriving DecidableEq, Repr

/-- Little-endian byte decoding used by `binary.LittleEndian.Uint64`
applied to an 8-byte slice. -/
def leU64 (bytes : List Nat) : Nat :=
  bytes.foldr (fun b acc => b + 256 * acc) 0

/-- Embeds `fetchBondingCurve` (file `bonding-curve.go`, lines 25-46).
The network read is an explicit input: `none` models a failed
`GetAccountInfoWithOpts` call or a missing account, `some data` the raw
account bytes.  Fewer than 24 bytes is an error (`none`); otherwise the
three reserves are the little-endian 64-bit words at offsets 0, 8 and 16,
trailing bytes ignored. -/
def fetchBondingCurve (accountData : Option (List Nat)) : Option BondingCurveData :=
  match accountData with
  | none => none
  | some data =>
    if data.length < 24 then none
    else some
      { realTokenReserves := (leU64 (data.take 8) : Int)
        virtualTokenReserves := (leU64 ((data.drop 8).take 8) : Int)
        virtualSolReserves := (leU64 ((data.drop 16).take 8) : Int) }

/-- Embeds `convertSlippageBasisPointsToPercentage` (buy source, lines
162-164): `1.0 - float64(slippageBasisPoint) / 10e3`, evaluated in
`float64` arithmetic (`10e3` is the literal `10000.0`). -/
def convertSlippageBasisPointsToPercentage (slippageBasisPoint : Nat) : GoFloat :=
  GoFloat.fsub ⟨1, 0⟩ (GoFloat.fdiv (float64OfNat slippageBasisPoint) ⟨10000, 0⟩)

/-- Embeds `calculateBuyQuote` (buy source, lines 170-200).  `none` models
the Go runtime panic of `big.Int.Div` on a zero divisor. -/
def calculateBuyQuote (solAmount : Nat) (bondingCurve : BondingCurveData)
    (percentage : GoFloat) : Option Int :=
  let solAmountBig := int64OfUint64 solAmount
  let virtualSolReserves := bondingCurve.virtualSolReserves
  let virtualTokenReserves := bondingCurve.virtualTokenReserves
  let newVirtualSolReserves := virtualSolReserves + solAmountBig
  let invariant := virtualSolReserves * virtualTokenReserves
  if newVirtualSolReserves = 0 then none
  else
    let newVirtualTokenReserves := invariant / newVirtualSolReserves
    let tokensToBuy := virtualTokenReserves - newVirtualTokenReserves
    some (bigFloatMulTrunc tokensToBuy percentage)

/-- Embeds `calculateSellQuote` (file `sell.go`, lines 149-169).  `none`
models the Go runtime panic of `big.Int.Div` on a zero divisor. -/
def calculateSellQuote (tokenAmount : Nat) (bondingCurve : BondingCurveData)
    (percentage : GoFloat) : Option Int :=
  let amount := int64OfUint64 tokenAmount
  let virtualSolReserves := bondingCurve.virtualSolReserves
  let virtualTokenReserves := bondingCurve.virtualTokenReserves
  let x := virtualSolReserves * amount
  let y := virtualTokenReserves + amount
  if y = 0 then none
  else
    let a := x / y
    some (bigFloatMulTrunc a percentage)

/-- Embeds the fee computation of `getComputUnitPriceInstr` (file
`create.go`, lines 91-105): the loop overwrites `median` with each sample
in turn (so it ends as the last sample, or 0 for no samples), then divides
by the sample count.  `none` models the Go runtime panic of the `uint64`
division `median /= length` when `length` is zero. -/
def getComputUnitPriceInstr (out : List Nat) : Option Nat :=
  let median := out.foldl (fun _ fee => fee) 0
  let length := out.length
  if length = 0 then none else some (median / length)

/-- One entry of the instruction list assembled for a transaction.  Only
the arguments the claims speak about are carried; the fixed account
addresses passed to the generated pump.fun constructors are dropped. -/
inductive Instruction where
  | setComputeUnitLimit (limit : Nat)
  | setComputeUnitPrice (price : Nat)
  | createAssociatedTokenAccount
  | tradeBuy (tokenAmount : Nat) (maxSolCost : Nat)
  | tradeSell (tokenAmount : Nat) (minSolOutput : Nat)
  deriving DecidableEq, Repr

/-- The ledger-client environment a buy or sell call runs against.  Per the
spec the lookup interface of the ledger client is `rawBytes | NotFound`, so
the outcome of `GetAccountInfo` on the associated token account is a
`Bool`; `bondingCurveData` is the decoded result of a successful
`fetchBondingCurve`; `tokenBalance` is the `GetTokenAccountBalance`
amount. -/
structure ChainEnv where
  ataExists : Bool
  bondingCurveData : BondingCurveData
  tokenBalance : Nat
  deriving DecidableEq, Repr

/-- Embeds `shouldCreateAta` (buy source, lines 28-34): create exactly when
`GetAccountInfo` returned an error, i.e. when the account was not found. -/
def shouldCreateAta (env : ChainEnv) : Bool :=
  !env.ataExists

/-- Embeds the instruction assembly of `getBuyInstructions` (buy source,
lines 101-160): an optional associated-token-account creation, then the
trade-buy instruction carrying `buy.Uint64()` and the literal SOL amount. -/
def getBuyInstructions (env : ChainEnv) (solAmount : Nat)
    (slippageBasisPoint : Nat) : Option (List Instruction) :=
  let ataInstructions : List Instruction :=
    if shouldCreateAta env then [.createAssociatedTokenAccount] else []
  let percentage := convertSlippageBasisPointsToPercentage slippageBasisPoint
  match calculateBuyQuote solAmount env.bondingCurveData percentage with
  | none => none
  | some buy => some (ataInstructions ++ [.tradeBuy (bigIntUint64 buy) solAmount])

/-- Embeds the instruction assembly of `BuyToken` (buy source, lines
41-99): compute-unit limit 250000 and fixed price 100000, then the buy
instructions.  Blockhash fetch, signing and submission are outside the
embedding. -/
def BuyToken (env : ChainEnv) (buyAmountLamports : Nat)
    (slippageBasisPoint : Nat) : Option (List Instruction) :=
  match getBuyInstructions env buyAmountLamports slippageBasisPoint with
  | none => none
  | some buyInstructions =>
    some ([.setComputeUnitLimit 250000, .setComputeUnitPrice 100000] ++ buyInstructions)

/-- Embeds the instruction assembly of `getSellInstructions` (file
`sell.go`, lines 82-143).  With `all` set, the live balance replaces the
requested amount; `strconv.Atoi` fails (an error return, `none`) when the
balance does not fit a signed 64-bit integer. -/
def getSellInstructions (env : ChainEnv) (sellTokenAmount : Nat)
    (slippageBasisPoint : Nat) (all : Bool) : Option Instruction :=
  let amount? : Option Nat :=
    if all then
      if env.tokenBalance < 2 ^ 63 then some env.tokenBalance else none
    else some sellTokenAmount
  match amount? with
  | none => none
  | some amount =>
    let percentage := convertSlippageBasisPointsToPercentage slippageBasisPoint
    match calculateSellQuote amount env.bondingCurveData percentage with
    | none => none
    | some minSolOutput => some (.tradeSell amount (bigIntUint64 minSolOutput))

/-- Embeds the instruction assembly of `SellToken` (file `sell.go`, lines
19-79): compute-unit limit 250000 and fixed price 10000, then the single
sell instruction.  Blockhash fetch, signing and submission are outside the
embedding. -/
def SellToken (env : ChainEnv) (sellTokenAmount : Nat)
    (slippageBasisPoint : Nat) (all : Bool) : Option (List Instruction) :=
  match getSellInstructions env sellTokenAmount slippageBasisPoint all with
  | none => none
  | some instr =>
    some [.setComputeUnitLimit 250000, .setComputeUnitPrice 10000, instr]

/-! ### Helper lemmas -/

/-- Recurrence of `Nat.size` on halving. -/
theorem size_eq_size_div2_succ {n : Nat} (h : n ≠ 0) : Nat.size n = Nat.size (n / 2) + 1 := by
  conv_lhs => rw [← Nat.bit_decomp n]
  rw [Nat.size_bit, Nat.div2_val]
  rw [Nat.bit_decomp]
  exact h

/-- With enough fuel, `bitLenAux` computes `Nat.size`. -/
theorem bitLenAux_eq_size : ∀ fuel n, n ≤ fuel → bitLenAux fuel n = Nat.size n
  | 0, n, hn => by
    have hz : n = 0 := Nat.le_zero.mp hn
    subst hz; simp [bitLenAux, Nat.size_zero]
  | fuel + 1, n, hn => by
    by_cases h : n = 0
    · subst h; simp [bitLenAux]
    · have hdiv : n / 2 ≤ fuel := by omega
      simp only [bitLenAux, if_neg h, bitLenAux_eq_size fuel (n / 2) hdiv]
      exact (size_eq_size_div2_succ h).symm

/-- The executable `bitLen` agrees with `Nat.size`. -/
theorem bitLen_eq_size (n : Nat) : bitLen n = Nat.size n :=
  bitLenAux_eq_size n n le_rfl

/-- Characterization of `bitLen` bounds from above. -/
theorem bitLen_le {m n : Nat} : bitLen m ≤ n ↔ m < 2 ^ n := by
  rw [bitLen_eq_size]; exact Nat.size_le

/-- Characterization of `bitLen` bounds from below. -/
theorem lt_bitLen {m n : Nat} : m < bitLen n ↔ 2 ^ m ≤ n := by
  rw [bitLen_eq_size]; exact Nat.lt_size

/-- The Go uint64-to-int64 conversion is the identity below `2 ^ 63`. -/
theorem int64OfUint64_of_lt {n : Nat} (h : n < 2 ^ 63) : int64OfUint64 n = (n : Int) := by
  rw [int64OfUint64, if_pos h]

/-- The Go uint64-to-int64 conversion wraps to a negative value at and above
`2 ^ 63`. -/
theorem int64OfUint64_of_ge {n : Nat} (h : 2 ^ 63 ≤ n) :
    int64OfUint64 n = (n : Int) - 2 ^ 64 := by
  rw [int64OfUint64, if_neg (Nat.not_lt.2 h)]

/-- Multiplying a big.Float integer by the exact float 1.0 and truncating
returns the integer unchanged. -/
theorem bigFloatMulTrunc_one (a : Int) : bigFloatMulTrunc a ⟨1, 0⟩ = a := by
  by_cases h : a = 0
  · subst h; rfl
  · simp [bigFloatMulTrunc, roundDyadic, mul_one, h, le_max_right, truncDyadic]

/-- Multiplying the big.Float integer 0 by any multiplier and truncating
gives 0. -/
theorem bigFloatMulTrunc_zero (m : GoFloat) : bigFloatMulTrunc 0 m = 0 := by
  simp [bigFloatMulTrunc, roundDyadic, truncDyadic]

/-- Unfolds `calculateBuyQuote` when the updated virtual SOL reserve is
nonzero. -/
theorem calculateBuyQuote_eq (solAmount : Nat) (bc : BondingCurveData) (m : GoFloat)
    (h : bc.virtualSolReserves + int64OfUint64 solAmount ≠ 0) :
    calculateBuyQuote solAmount bc m =
      some (bigFloatMulTrunc
        (bc.virtualTokenReserves -
          (bc.virtualSolReserves * bc.virtualTokenReserves) /
            (bc.virtualSolReserves + int64OfUint64 solAmount)) m) := by
  simp only [calculateBuyQuote]
  rw [if_neg h]

/-- Unfolds `calculateSellQuote` when the divisor is nonzero. -/
theorem calculateSellQuote_eq (tokenAmount : Nat) (bc : BondingCurveData) (m : GoFloat)
    (h : bc.virtualTokenReserves + int64OfUint64 tokenAmount ≠ 0) :
    calculateSellQuote tokenAmount bc m =
      some (bigFloatMulTrunc
        ((bc.virtualSolReserves * int64OfUint64 tokenAmount) /
          (bc.virtualTokenReserves + int64OfUint64 tokenAmount)) m) := by
  simp only [calculateSellQuote]
  rw [if_neg h]

/-! ### Claim C1 -/

/-- C1 (amended: the SOL input must be below `2 ^ 63`, since both quote
functions pass the caller amount through a signed 64-bit intermediate).
For every snapshot with positive virtual reserves, every SOL input below
`2 ^ 63` and every tolerance multiplier, the buy quote equals
`virtualToken - tdiv (virtualSol * virtualToken) (virtualSol + solIn)`
(the inner division truncating toward zero) pushed through the float
multiply-then-truncate slippage step. -/
theorem buyQuote_matches_formula (bc : BondingCurveData) (solIn : Nat) (m : GoFloat)
    (hS : 0 < bc.virtualSolReserves) (hT : 0 < bc.virtualTokenReserves)
    (hsol : solIn < 2 ^ 63) :
    calculateBuyQuote solIn bc m =
      some (bigFloatMulTrunc
        (bc.virtualTokenReserves -
          Int.tdiv (bc.virtualSolReserves * bc.virtualTokenReserves)
            (bc.virtualSolReserves + (solIn : Int))) m) := by
  have hconv := int64OfUint64_of_lt hsol
  have hpos : 0 < bc.virtualSolReserves + (solIn : Int) :=
    add_pos_of_pos_of_nonneg hS (Int.natCast_nonneg _)
  have hne : bc.virtualSolReserves + int64OfUint64 solIn ≠ 0 := by
    rw [hconv]; exact ne_of_gt hpos
  rw [calculateBuyQuote_eq _ _ _ hne, hconv,
    Int.tdiv_eq_ediv (mul_nonneg hS.le hT.le) hpos.le]

/-- C1 witness: at the documented concrete input the formula instance
holds and evaluates to 999001. -/
theorem buyQuote_matches_formula_witness :
    (calculateBuyQuote 1000 ⟨0, 1000000000, 1000000⟩ ⟨1, 0⟩ =
      some (bigFloatMulTrunc
        ((1000000000 : Int) -
          Int.tdiv ((1000000 : Int) * 1000000000) (1000000 + ((1000 : Nat) : Int))) ⟨1, 0⟩)) ∧
    calculateBuyQuote 1000 ⟨0, 1000000000, 1000000⟩ ⟨1, 0⟩ = some 999001 :=
  ⟨buyQuote_matches_formula ⟨0, 1000000000, 1000000⟩ 1000 ⟨1, 0⟩ (by norm_num) (by norm_num)
      (by norm_num),
    by decide⟩

/-- C1 counterexample: for a SOL input at the top of the uint64 range the
signed 64-bit wrap makes the code disagree with the claimed formula (the
code returns -100, the formula gives 100). -/
theorem buyQuote_formula_counterexample :
    ¬ (calculateBuyQuote (2 ^ 64 - 1) ⟨0, 100, 2⟩ ⟨1, 0⟩ =
      some (bigFloatMulTrunc
        (100 - Int.tdiv ((2 : Int) * 100) (2 + ((2 ^ 64 - 1 : Nat) : Int))) ⟨1, 0⟩)) := by
  decide

/-! ### Claim C2 -/

/-- C2 (amended: the token input must be below `2 ^ 63`, since both quote
functions pass the caller amount through a signed 64-bit intermediate).
For every snapshot with nonnegative virtual SOL and positive virtual token
reserves, every token input below `2 ^ 63` and every tolerance multiplier,
the sell quote is the single spot-price truncating division
`tdiv (virtualSol * tokensIn) (virtualToken + tokensIn)` pushed through the
float multiply-then-truncate slippage step. -/
theorem sellQuote_matches_formula (bc : BondingCurveData) (tokensIn : Nat) (m : GoFloat)
    (hS : 0 ≤ bc.virtualSolReserves) (hT : 0 < bc.virtualTokenReserves)
    (htok : tokensIn < 2 ^ 63) :
    calculateSellQuote tokensIn bc m =
      some (bigFloatMulTrunc
        (Int.tdiv (bc.virtualSolReserves * (tokensIn : Int))
          (bc.virtualTokenReserves + (tokensIn : Int))) m) := by
  have hconv := int64OfUint64_of_lt htok
  have hpos : 0 < bc.virtualTokenReserves + (tokensIn : Int) :=
    add_pos_of_pos_of_nonneg hT (Int.natCast_nonneg _)
  have hne : bc.virtualTokenReserves + int64OfUint64 tokensIn ≠ 0 := by
    rw [hconv]; exact ne_of_gt hpos
  rw [calculateSellQuote_eq _ _ _ hne, hconv,
    Int.tdiv_eq_ediv (mul_nonneg hS (Int.natCast_nonneg _)) hpos.le]

/-- C2 witness: selling 50 tokens against reserves virtualSol 7 and
virtualToken 100 quotes `tdiv 350 150 = 2`. -/
theorem sellQuote_matches_formula_witness :
    (calculateSellQuote 50 ⟨0, 100, 7⟩ ⟨1, 0⟩ =
      some (bigFloatMulTrunc
        (Int.tdiv ((7 : Int) * ((50 : Nat) : Int)) (100 + ((50 : Nat) : Int))) ⟨1, 0⟩)) ∧
    calculateSellQuote 50 ⟨0, 100, 7⟩ ⟨1, 0⟩ = some 2 :=
  ⟨sellQuote_matches_formula ⟨0, 100, 7⟩ 50 ⟨1, 0⟩ (by norm_num) (by norm_num) (by norm_num),
    by decide⟩

/-- C2 counterexample: for a token input at the top of the uint64 range the
signed 64-bit wrap makes the code disagree with the claimed formula (the
code returns -5, the formula gives 4). -/
theorem sellQuote_formula_counterexample :
    ¬ (calculateSellQuote (2 ^ 64 - 1) ⟨0, 2, 5⟩ ⟨1, 0⟩ =
      some (bigFloatMulTrunc
        (Int.tdiv ((5 : Int) * ((2 ^ 64 - 1 : Nat) : Int)) (2 + ((2 ^ 64 - 1 : Nat) : Int)))
        ⟨1, 0⟩)) := by
  decide

/-! ### Claim C3 -/

/-- C3: the fee estimator does not compute the arithmetic mean: on the
two-sample list `[1, 5]` it returns the last sample divided by the count
(`5 / 2 = 2`) while the mean is `(1 + 5) / 2 = 3`; and on the empty list it
divides by zero (a Go runtime panic, modelled by `none`) instead of
returning a NoFeeDataError-class error value. -/
theorem feeEstimator_not_mean :
    getComputUnitPriceInstr [1, 5] = some 2 ∧
    (1 + 5) / 2 = 3 ∧
    getComputUnitPriceInstr [] = none := by
  decide

/-! ### Claim C6 -/

/-- C6: whenever the quote divisor is zero (`virtualSol + solIn = 0` for
the buy quote, `virtualToken + tokensIn = 0` for the sell quote), the quote
operation fails (the division-by-zero panic of `big.Int.Div`, modelled by
`none`) instead of producing a value. -/
theorem quoteDivisorZero_fails (bc : BondingCurveData) (solIn tokensIn : Nat) (m : GoFloat)
    (h1 : solIn < 2 ^ 63) (h2 : tokensIn < 2 ^ 63) :
    (bc.virtualSolReserves + (solIn : Int) = 0 → calculateBuyQuote solIn bc m = none) ∧
    (bc.virtualTokenReserves + (tokensIn : Int) = 0 → calculateSellQuote tokensIn bc m = none) := by
  constructor
  · intro h
    simp only [calculateBuyQuote, int64OfUint64_of_lt h1]
    rw [if_pos h]
  · intro h
    simp only [calculateSellQuote, int64OfUint64_of_lt h2]
    rw [if_pos h]

/-- C6 witness: quoting against the uninitialized all-zero snapshot with a
zero amount fails in both directions. -/
theorem quoteDivisorZero_fails_witness :
    calculateBuyQuote 0 ⟨0, 0, 0⟩ ⟨1, 0⟩ = none ∧
    calculateSellQuote 0 ⟨0, 0, 0⟩ ⟨1, 0⟩ = none := by
  have h := quoteDivisorZero_fails ⟨0, 0, 0⟩ 0 0 ⟨1, 0⟩ (by norm_num) (by norm_num)
  exact ⟨h.1 (by norm_num), h.2 (by norm_num)⟩

/-! ### Claim C4 -/

/-- C4 (amended: the round trip additionally needs `virtualSol ≤
virtualToken`, and the amounts must stay below `2 ^ 63` to avoid the
signed 64-bit wrap).  For snapshots with `0 < virtualSol ≤ virtualToken <
2 ^ 63`, a SOL input below `2 ^ 63` and tolerance multiplier 1.0, selling
the token amount returned by the buy quote back into the same unmodified
snapshot yields at most the original SOL input. -/
theorem buyThenSell_le_solIn (bc : BondingCurveData) (solIn : Nat)
    (hS : 0 < bc.virtualSolReserves)
    (hST : bc.virtualSolReserves ≤ bc.virtualTokenReserves)
    (hT63 : bc.virtualTokenReserves < 2 ^ 63) (hsol : solIn < 2 ^ 63) :
    ∀ t s : Int, calculateBuyQuote solIn bc ⟨1, 0⟩ = some t →
      calculateSellQuote t.toNat bc ⟨1, 0⟩ = some s → s ≤ (solIn : Int) := by
  intro t s hbuy hsell
  set S := bc.virtualSolReserves with hSdef
  set T := bc.virtualTokenReserves with hTdef
  set a : Int := (solIn : Int) with hadef
  have hT : 0 < T := lt_of_lt_of_le hS hST
  have ha : (0 : Int) ≤ a := Int.natCast_nonneg _
  have hpos : 0 < S + a := add_pos_of_pos_of_nonneg hS ha
  have hne : S + int64OfUint64 solIn ≠ 0 := by
    rw [int64OfUint64_of_lt hsol]; exact ne_of_gt hpos
  rw [calculateBuyQuote_eq _ _ _ hne, int64OfUint64_of_lt hsol, bigFloatMulTrunc_one] at hbuy
  have ht : t = T - S * T / (S + a) := (Option.some.inj hbuy).symm
  set q : Int := S * T / (S + a) with hqdef
  have heq : (S + a) * q + S * T % (S + a) = S * T := Int.ediv_add_emod (S * T) (S + a)
  have hr0 : 0 ≤ S * T % (S + a) := Int.emod_nonneg _ (ne_of_gt hpos)
  have hrlt : S * T % (S + a) < S + a := Int.emod_lt_of_pos _ hpos
  have hq0 : 0 ≤ q := Int.ediv_nonneg (mul_nonneg hS.le hT.le) hpos.le
  have hqT : q ≤ T := by
    have hle : q * (S + a) ≤ T * (S + a) := by nlinarith [mul_nonneg hT.le ha]
    exact le_of_mul_le_mul_right hle hpos
  have ht0 : 0 ≤ t := by omega
  have htT : t ≤ T := by omega
  have htn : ((t.toNat : Nat) : Int) = t := Int.toNat_of_nonneg ht0
  have htn63 : t.toNat < 2 ^ 63 := by omega
  have hTt : 0 < T + t := add_pos_of_pos_of_nonneg hT ht0
  have hne2 : T + int64OfUint64 t.toNat ≠ 0 := by
    rw [int64OfUint64_of_lt htn63, htn]; exact ne_of_gt hTt
  rw [calculateSellQuote_eq _ _ _ hne2, int64OfUint64_of_lt htn63, htn,
    bigFloatMulTrunc_one] at hsell
  have hs : s = S * t / (T + t) := (Option.some.inj hsell).symm
  have K1 : t * (S + a) ≤ T * a + S + a - 1 := by nlinarith []
  have K2 : T * a ≤ t * (S + a) := by nlinarith []
  have step : S * t * (S + a) < (a + 1) * (T + t) * (S + a) := by
    nlinarith [mul_le_mul_of_nonneg_left K1 hS.le,
      mul_le_mul_of_nonneg_left K2 (show (0 : Int) ≤ a + 1 by linarith),
      mul_le_mul_of_nonneg_left hST hS.le,
      mul_le_mul_of_nonneg_right hST ha,
      mul_nonneg (mul_nonneg hT.le ha) ha,
      mul_nonneg hT.le ha]
  have hlt2 : S * t < (a + 1) * (T + t) := lt_of_mul_lt_mul_right step hpos.le
  have hsa : s < a + 1 := by
    rw [hs]
    exact (Int.ediv_lt_iff_lt_mul hTt).mpr hlt2
  omega

/-- C4 witness: with reserves virtualSol 1000000 and virtualToken
1000000000, buying with 1000 lamports and selling the quoted 999001 tokens
back returns only 998 lamports. -/
theorem buyThenSell_le_solIn_witness :
    calculateBuyQuote 1000 ⟨0, 1000000000, 1000000⟩ ⟨1, 0⟩ = some 999001 ∧
    calculateSellQuote 999001 ⟨0, 1000000000, 1000000⟩ ⟨1, 0⟩ = some 998 ∧
    (998 : Int) ≤ ((1000 : Nat) : Int) := by
  have hb : calculateBuyQuote 1000 ⟨0, 1000000000, 1000000⟩ ⟨1, 0⟩ = some 999001 := by decide
  have hsq : calculateSellQuote 999001 ⟨0, 1000000000, 1000000⟩ ⟨1, 0⟩ = some 998 := by decide
  refine ⟨hb, hsq, ?_⟩
  have hb2 : calculateBuyQuote 1000 ⟨0, 1000000000, 1000000⟩ ⟨1, 0⟩ = some ((999001 : Int)) := hb
  have hs2 : calculateSellQuote (Int.toNat 999001) ⟨0, 1000000000, 1000000⟩ ⟨1, 0⟩ = some 998 := hsq
  exact buyThenSell_le_solIn ⟨0, 1000000000, 1000000⟩ 1000 (by norm_num) (by norm_num)
    (by norm_num) (by norm_num) 999001 998 hb2 hs2

/-- C4 counterexample: with reserves virtualSol 1000 and virtualToken 1
(virtualSol greater than virtualToken), buying with 1 lamport quotes 1
token, and selling that token back against the same snapshot quotes 500
lamports, far above the original 1. -/
theorem buyThenSell_counterexample :
    calculateBuyQuote 1 ⟨0, 1, 1000⟩ ⟨1, 0⟩ = some 1 ∧
    calculateSellQuote 1 ⟨0, 1, 1000⟩ ⟨1, 0⟩ = some 500 ∧
    ¬ ((500 : Int) ≤ ((1 : Nat) : Int)) := by
  decide

/-! ### Claim C10 -/

/-- C10: both quote functions push the caller uint64 amount through a
signed 64-bit intermediate: below `2 ^ 63` the value is preserved, at and
above `2 ^ 63` the quote is computed with `amount - 2 ^ 64` instead. -/
theorem quoteAmount_wraps_above_2_63 (n : Nat) (bc : BondingCurveData) (m : GoFloat)
    (hlo : 2 ^ 63 ≤ n) (_hhi : n < 2 ^ 64) :
    int64OfUint64 n = (n : Int) - 2 ^ 64 ∧
    (∀ k : Nat, k < 2 ^ 63 → int64OfUint64 k = (k : Int)) ∧
    calculateBuyQuote n bc m =
      (if bc.virtualSolReserves + ((n : Int) - 2 ^ 64) = 0 then none
       else some (bigFloatMulTrunc
         (bc.virtualTokenReserves -
           (bc.virtualSolReserves * bc.virtualTokenReserves) /
             (bc.virtualSolReserves + ((n : Int) - 2 ^ 64))) m)) ∧
    calculateSellQuote n bc m =
      (if bc.virtualTokenReserves + ((n : Int) - 2 ^ 64) = 0 then none
       else some (bigFloatMulTrunc
         ((bc.virtualSolReserves * ((n : Int) - 2 ^ 64)) /
           (bc.virtualTokenReserves + ((n : Int) - 2 ^ 64))) m)) := by
  refine ⟨int64OfUint64_of_ge hlo, fun k hk => int64OfUint64_of_lt hk, ?_, ?_⟩
  · simp only [calculateBuyQuote, int64OfUint64_of_ge hlo]
  · simp only [calculateSellQuote, int64OfUint64_of_ge hlo]

/-! ### Claim C5 -/

/-- Reading an element of a dropped list. -/
theorem getD_drop (l : List Nat) : ∀ start i : Nat, (l.drop start).getD i 0 = l.getD (start + i) 0 := by
  induction l with
  | nil => intro start i; simp
  | cons b t ih =>
    intro start i
    cases start with
    | zero => simp
    | succ s =>
      have := ih s i
      simp only [List.drop_succ_cons, List.getD_cons_succ, Nat.succ_add]
      exact this

/-- Reading an element of a taken prefix, inside the range. -/
theorem getD_take (l : List Nat) : ∀ n i : Nat, i < n → (l.take n).getD i 0 = l.getD i 0 := by
  induction l with
  | nil => intro n i _; simp
  | cons b t ih =>
    intro n i hi
    cases n with
    | zero => omega
    | succ n =>
      cases i with
      | zero => simp
      | succ i => simpa using ih n i (by omega)

/-- `leU64` is the base-256 positional sum of the byte list. -/
theorem leU64_eq_sum (l : List Nat) :
    leU64 l = ∑ i ∈ Finset.range l.length, l.getD i 0 * 256 ^ i := by
  induction l with
  | nil => simp [leU64]
  | cons b t ih =>
    have hstep : leU64 (b :: t) = b + 256 * leU64 t := rfl
    rw [hstep, List.length_cons, Finset.sum_range_succ']
    simp only [List.getD_cons_succ, List.getD_cons_zero, pow_zero, mul_one]
    rw [ih, Finset.mul_sum, Nat.add_comm]
    congr 1
    refine Finset.sum_congr rfl fun i _ => ?_
    ring

/-- A list of bytes decodes below `256 ^ length`. -/
theorem leU64_lt (l : List Nat) (h : ∀ b ∈ l, b < 256) : leU64 l < 256 ^ l.length := by
  induction l with
  | nil => simp [leU64]
  | cons b t ih =>
    have hb : b < 256 := h b (List.mem_cons_self b t)
    have ht := ih fun x hx => h x (List.mem_cons_of_mem b hx)
    have hstep : leU64 (b :: t) = b + 256 * leU64 t := rfl
    rw [hstep, List.length_cons, pow_succ]
    have h1 : leU64 t + 1 ≤ 256 ^ t.length := ht
    calc b + 256 * leU64 t < 256 * (leU64 t + 1) := by omega
    _ ≤ 256 * 256 ^ t.length := Nat.mul_le_mul_left 256 h1
    _ = 256 ^ t.length * 256 := Nat.mul_comm _ _

/-- An eight-byte window at offset `s` decodes to the positional sum of the
bytes `s` to `s + 7`. -/
theorem leU64_window (data : List Nat) (s : Nat) (h : s + 8 ≤ data.length) :
    leU64 ((data.drop s).take 8) = ∑ i ∈ Finset.range 8, data.getD (s + i) 0 * 256 ^ i := by
  rw [leU64_eq_sum]
  have hlen : ((data.drop s).take 8).length = 8 := by
    simp only [List.length_take, List.length_drop]
    omega
  rw [hlen]
  refine Finset.sum_congr rfl fun i hi => ?_
  rw [getD_take _ _ _ (Finset.mem_range.mp hi), getD_drop]

/-- A decoded window is an unsigned 64-bit value when the input is a byte
list. -/
theorem leU64_window_lt (data : List Nat) (s : Nat) (h : ∀ b ∈ data, b < 256) :
    leU64 ((data.drop s).take 8) < 2 ^ 64 := by
  have hmem : ∀ b ∈ (data.drop s).take 8, b < 256 := fun b hb =>
    h b (List.mem_of_mem_drop (List.mem_of_mem_take hb))
  have hlt := leU64_lt _ hmem
  have hlen : ((data.drop s).take 8).length ≤ 8 := by
    simp [List.length_take]
  calc leU64 ((data.drop s).take 8) < 256 ^ ((data.drop s).take 8).length := hlt
  _ ≤ 256 ^ 8 := Nat.pow_le_pow_right (by norm_num) hlen
  _ = 2 ^ 64 := by norm_num

/-- C5: the reserve decoder fails exactly when fewer than 24 bytes are
supplied; otherwise it returns the three little-endian unsigned 64-bit
words at byte offsets 0, 8 and 16 (trailing bytes ignored), and on byte
input each decoded field is below `2 ^ 64`. -/
theorem decodeReserves_spec (data : List Nat) :
    (fetchBondingCurve (some data) = none ↔ data.length < 24) ∧
    (24 ≤ data.length →
      fetchBondingCurve (some data) =
        some
          { realTokenReserves := ((∑ i ∈ Finset.range 8, data.getD i 0 * 256 ^ i : Nat) : Int)
            virtualTokenReserves :=
              ((∑ i ∈ Finset.range 8, data.getD (8 + i) 0 * 256 ^ i : Nat) : Int)
            virtualSolReserves :=
              ((∑ i ∈ Finset.range 8, data.getD (16 + i) 0 * 256 ^ i : Nat) : Int) }) ∧
    ((∀ b ∈ data, b < 256) →
      leU64 (data.take 8) < 2 ^ 64 ∧ leU64 ((data.drop 8).take 8) < 2 ^ 64 ∧
        leU64 ((data.drop 16).take 8) < 2 ^ 64) := by
  refine ⟨?_, ?_, ?_⟩
  · by_cases h : data.length < 24 <;> simp [fetchBondingCurve, h]
  · intro h
    have hnot : ¬ data.length < 24 := Nat.not_lt.2 h
    simp only [fetchBondingCurve, if_neg hnot]
    have h0 : leU64 (data.take 8) = ∑ i ∈ Finset.range 8, data.getD i 0 * 256 ^ i := by
      have hw := leU64_window data 0 (by omega)
      rw [List.drop_zero] at hw
      simp only [Nat.zero_add] at hw
      exact hw
    have h8 := leU64_window data 8 (by omega)
    have h16 := leU64_window data 16 (by omega)
    rw [h0, h8, h16]
  · intro h
    have h0 := leU64_window_lt data 0 h
    rw [List.drop_zero] at h0
    exact ⟨h0, leU64_window_lt data 8 h, leU64_window_lt data 16 h⟩

/-- C5 witness: the documented 24-byte buffer decodes to reserves 1, 2, 3,
and a 23-byte buffer fails. -/
theorem decodeReserves_spec_witness :
    fetchBondingCurve
        (some ([1, 0, 0, 0, 0, 0, 0, 0] ++ [2, 0, 0, 0, 0, 0, 0, 0] ++ [3, 0, 0, 0, 0, 0, 0, 0])) =
      some { realTokenReserves := 1, virtualTokenReserves := 2, virtualSolReserves := 3 } ∧
    fetchBondingCurve (some (List.replicate 23 0)) = none := by
  constructor
  · rw [(decodeReserves_spec
        ([1, 0, 0, 0, 0, 0, 0, 0] ++ [2, 0, 0, 0, 0, 0, 0, 0] ++ [3, 0, 0, 0, 0, 0, 0, 0])).2.1
      (by decide)]
    decide
  · exact (decodeReserves_spec (List.replicate 23 0)).1.mpr (by decide)

/-! ### Claim C7 -/

/-- C7: the buy flow assembles exactly the ordered list computeUnitLimit
250000, computeUnitPrice 100000, an optional associated-token-account
creation, then the trade-buy instruction carrying the quote and the
literal SOL amount; the creation step is present iff the ledger lookup of
the buyer associated token account reports the account as not found. -/
theorem buyFlow_instructions (env : ChainEnv) (sol bp : Nat)
    (hS : 0 < env.bondingCurveData.virtualSolReserves) (hsol : sol < 2 ^ 63) :
    ∃ buy : Int,
      calculateBuyQuote sol env.bondingCurveData
          (convertSlippageBasisPointsToPercentage bp) = some buy ∧
      BuyToken env sol bp =
        some ([.setComputeUnitLimit 250000, .setComputeUnitPrice 100000] ++
          (if env.ataExists then [] else [.createAssociatedTokenAccount]) ++
          [.tradeBuy (bigIntUint64 buy) sol]) := by
  obtain ⟨ata, bcd, bal⟩ := env
  have hne : bcd.virtualSolReserves + int64OfUint64 sol ≠ 0 := by
    rw [int64OfUint64_of_lt hsol]
    exact ne_of_gt (add_pos_of_pos_of_nonneg hS (Int.natCast_nonneg _))
  refine ⟨_, calculateBuyQuote_eq _ _ _ hne, ?_⟩
  cases ata <;>
    simp [BuyToken, getBuyInstructions, shouldCreateAta, calculateBuyQuote_eq _ _ _ hne]

/-- C7 witness: with the account reported missing, the assembled list
contains the creation step before the trade-buy instruction. -/
theorem buyFlow_instructions_witness :
    BuyToken ⟨false, ⟨0, 1000000000, 1000000⟩, 0⟩ 1000 100 =
      some [.setComputeUnitLimit 250000, .setComputeUnitPrice 100000,
        .createAssociatedTokenAccount, .tradeBuy 989010 1000] := by
  obtain ⟨buy, hq, hl⟩ :=
    buyFlow_instructions ⟨false, ⟨0, 1000000000, 1000000⟩, 0⟩ 1000 100 (by norm_num) (by norm_num)
  have hv : calculateBuyQuote 1000 ⟨0, 1000000000, 1000000⟩
      (convertSlippageBasisPointsToPercentage 100) = some 989010 := by decide
  have hbuy : buy = 989010 := Option.some.inj (hq.symm.trans hv)
  subst hbuy
  rw [hl]
  decide

/-! ### Claim C8 -/

/-- C8: the sell flow assembles exactly the ordered list computeUnitLimit
250000, computeUnitPrice 10000 and the trade-sell instruction, with no
associated-account creation; under sell-all the live balance replaces the
requested amount before quoting, and a zero balance still yields a valid
zero-output quote. -/
theorem sellFlow_instructions (env : ChainEnv) (amt bp : Nat) (all : Bool)
    (hT : 0 < env.bondingCurveData.virtualTokenReserves)
    (hbal : env.tokenBalance < 2 ^ 63) (hamt : amt < 2 ^ 63) :
    ∃ minSol : Int,
      calculateSellQuote (if all then env.tokenBalance else amt) env.bondingCurveData
          (convertSlippageBasisPointsToPercentage bp) = some minSol ∧
      SellToken env amt bp all =
        some [.setComputeUnitLimit 250000, .setComputeUnitPrice 10000,
          .tradeSell (if all then env.tokenBalance else amt) (bigIntUint64 minSol)] ∧
      (all = true → env.tokenBalance = 0 → minSol = 0) := by
  obtain ⟨ata, bcd, bal⟩ := env
  have hlt : (if all then bal else amt) < 2 ^ 63 := by
    cases all with
    | false => simpa using hamt
    | true => simpa using hbal
  have hne : bcd.virtualTokenReserves + int64OfUint64 (if all then bal else amt) ≠ 0 := by
    rw [int64OfUint64_of_lt hlt]
    exact ne_of_gt (add_pos_of_pos_of_nonneg hT (Int.natCast_nonneg _))
  refine ⟨_, calculateSellQuote_eq _ _ _ hne, ?_, ?_⟩
  · cases all with
    | false =>
      simp only [Bool.false_eq_true, if_false] at hne ⊢
      simp [SellToken, getSellInstructions, calculateSellQuote_eq _ _ _ hne]
    | true =>
      simp only [if_true] at hne ⊢
      have hbal2 : bal < 9223372036854775808 := by simpa using hbal
      simp [SellToken, getSellInstructions, hbal2, calculateSellQuote_eq _ _ _ hne]
  · intro hall hzero
    subst hall
    subst hzero
    have hc : int64OfUint64 0 = 0 := by
      rw [int64OfUint64_of_lt (by norm_num)]
      simp
    simp [hc, bigFloatMulTrunc_zero]

/-- C8 witness: sell-all with a zero live balance assembles the list with
a zero-amount trade-sell carrying a zero minimum output. -/
theorem sellFlow_instructions_witness :
    SellToken ⟨true, ⟨0, 5, 9⟩, 0⟩ 7 100 true =
      some [.setComputeUnitLimit 250000, .setComputeUnitPrice 10000, .tradeSell 0 0] ∧
    calculateSellQuote 0 ⟨0, 5, 9⟩ (convertSlippageBasisPointsToPercentage 100) = some 0 := by
  obtain ⟨minSol, hq, hl, hz⟩ :=
    sellFlow_instructions ⟨true, ⟨0, 5, 9⟩, 0⟩ 7 100 true (by norm_num) (by norm_num) (by norm_num)
  have h0 : minSol = 0 := hz rfl rfl
  subst h0
  refine ⟨?_, ?_⟩
  · rw [hl]; decide
  · exact hq

/-- C10 witness: at amount `2 ^ 63` the buy quote is computed with the
wrapped negative amount `2 ^ 63 - 2 ^ 64`. -/
theorem quoteAmount_wraps_witness :
    int64OfUint64 (2 ^ 63) = ((2 ^ 63 : Nat) : Int) - 2 ^ 64 ∧
    calculateBuyQuote (2 ^ 63) ⟨0, 3, 2⟩ ⟨1, 0⟩ =
      (if (2 : Int) + (((2 ^ 63 : Nat) : Int) - 2 ^ 64) = 0 then none
       else some (bigFloatMulTrunc
         (3 - ((2 : Int) * 3) / (2 + (((2 ^ 63 : Nat) : Int) - 2 ^ 64))) ⟨1, 0⟩)) := by
  have h := quoteAmount_wraps_above_2_63 (2 ^ 63) ⟨0, 3, 2⟩ ⟨1, 0⟩ (le_refl _) (by norm_num)
  exact ⟨h.1, h.2.2.1⟩

/-! ### Float rounding value bounds (for claim C9) -/

/-- Powers of two are positive in the rationals. -/
theorem two_zpow_pos (s : Int) : (0 : ℚ) < (2 : ℚ) ^ s :=
  zpow_pos (by norm_num) s

/-- Nearest rounding is at least the floor. -/
theorem divRoundNE_lower (n d : Nat) : n / d ≤ divRoundNE n d := by
  simp only [divRoundNE]
  split_ifs <;> omega

/-- Nearest rounding is at most the floor plus one. -/
theorem divRoundNE_upper (n d : Nat) : divRoundNE n d ≤ n / d + 1 := by
  simp only [divRoundNE]
  split_ifs <;> omega

/-- The shifted pair keeps a positive denominator and represents the
shifted value. -/
theorem shiftRat_spec (n d : Nat) (hd : 0 < d) (s : Int) :
    0 < (shiftRat n d s).2 ∧
      ((shiftRat n d s).1 : ℚ) / ((shiftRat n d s).2 : ℚ) = (n : ℚ) / d * (2 : ℚ) ^ s := by
  unfold shiftRat
  by_cases hs : 0 ≤ s
  · rw [if_pos hs]
    refine ⟨hd, ?_⟩
    have h2 : (2 : ℚ) ^ s = (2 : ℚ) ^ s.toNat := by
      rw [← zpow_natCast (2 : ℚ) s.toNat, Int.toNat_of_nonneg hs]
    rw [h2]
    push_cast [Nat.shiftLeft_eq]
    ring
  · rw [if_neg hs]
    have hs' : 0 ≤ -s := by omega
    refine ⟨by rw [Nat.shiftLeft_eq]; positivity, ?_⟩
    have h2 : (2 : ℚ) ^ (-s) = (2 : ℚ) ^ (-s).toNat := by
      rw [← zpow_natCast (2 : ℚ) (-s).toNat, Int.toNat_of_nonneg hs']
    have hz : (2 : ℚ) ^ s = ((2 : ℚ) ^ ((-s).toNat : Nat))⁻¹ := by
      rw [← h2, ← zpow_neg, neg_neg]
    rw [hz]
    push_cast [Nat.shiftLeft_eq]
    have hdq : (0 : ℚ) < (d : ℚ) := by exact_mod_cast hd
    field_simp

/-- The power-of-two comparison test is correct. -/
theorem ratGePow2_iff (n d : Nat) (hd : 0 < d) (t : Int) :
    ratGePow2 n d t = true ↔ (2 : ℚ) ^ t ≤ (n : ℚ) / d := by
  unfold ratGePow2
  have hdq : (0 : ℚ) < (d : ℚ) := by exact_mod_cast hd
  by_cases hs : 0 ≤ t
  · rw [if_pos hs]
    have h2 : (2 : ℚ) ^ t = (2 : ℚ) ^ t.toNat := by
      rw [← zpow_natCast (2 : ℚ) t.toNat, Int.toNat_of_nonneg hs]
    rw [h2, le_div_iff₀ hdq, decide_eq_true_eq]
    rw [Nat.shiftLeft_eq]
    constructor
    · intro hle
      calc (2 : ℚ) ^ t.toNat * d = ((d * 2 ^ t.toNat : Nat) : ℚ) := by push_cast; ring
      _ ≤ (n : ℚ) := by exact_mod_cast hle
    · intro hle
      have : ((d * 2 ^ t.toNat : Nat) : ℚ) ≤ (n : ℚ) := by
        calc ((d * 2 ^ t.toNat : Nat) : ℚ) = (2 : ℚ) ^ t.toNat * d := by push_cast; ring
        _ ≤ (n : ℚ) := hle
      exact_mod_cast this
  · rw [if_neg hs, decide_eq_true_eq]
    have hs' : 0 ≤ -t := by omega
    have h2 : (2 : ℚ) ^ (-t) = (2 : ℚ) ^ (-t).toNat := by
      rw [← zpow_natCast (2 : ℚ) (-t).toNat, Int.toNat_of_nonneg hs']
    have hz : (2 : ℚ) ^ t = 1 / (2 : ℚ) ^ ((-t).toNat : Nat) := by
      rw [← h2, one_div, ← zpow_neg, neg_neg]
    rw [hz, div_le_div_iff₀ (by positivity) hdq, one_mul, Nat.shiftLeft_eq]
    constructor
    · intro hle
      calc (d : ℚ) = ((d : Nat) : ℚ) := rfl
      _ ≤ ((n * 2 ^ (-t).toNat : Nat) : ℚ) := by exact_mod_cast hle
      _ = (n : ℚ) * 2 ^ (-t).toNat := by push_cast; ring
    · intro hle
      have : ((d : Nat) : ℚ) ≤ ((n * 2 ^ (-t).toNat : Nat) : ℚ) := by
        calc ((d : Nat) : ℚ) = (d : ℚ) := rfl
        _ ≤ (n : ℚ) * 2 ^ (-t).toNat := hle
        _ = ((n * 2 ^ (-t).toNat : Nat) : ℚ) := by push_cast; ring
      exact_mod_cast this

/-- Bounding a quotient of naturals from above by a power of two. -/
theorem pow_div_lt (n d u v : Nat) (hd : 0 < d) (hn : n < 2 ^ u) (hv : 2 ^ v ≤ d) :
    (n : ℚ) / d < (2 : ℚ) ^ ((u : Int) - v) := by
  have hdq : (0 : ℚ) < (d : ℚ) := by exact_mod_cast hd
  rw [div_lt_iff₀ hdq, zpow_sub₀ (two_ne_zero), zpow_natCast, zpow_natCast,
    div_mul_eq_mul_div, lt_div_iff₀ (by positivity)]
  have hnat : n * 2 ^ v < 2 ^ u * d := by
    have h1 : n * 2 ^ v < 2 ^ u * 2 ^ v :=
      Nat.mul_lt_mul_of_lt_of_le hn (le_refl _) (Nat.pos_pow_of_pos v (by norm_num))
    have h2 : 2 ^ u * 2 ^ v ≤ 2 ^ u * d := Nat.mul_le_mul_left _ hv
    omega
  exact_mod_cast hnat

/-- Bounding a quotient of naturals from below by a power of two. -/
theorem pow_div_le (n d u v : Nat) (hd : 0 < d) (hn : 2 ^ u ≤ n) (hv : d ≤ 2 ^ v) :
    (2 : ℚ) ^ ((u : Int) - v) ≤ (n : ℚ) / d := by
  have hdq : (0 : ℚ) < (d : ℚ) := by exact_mod_cast hd
  rw [le_div_iff₀ hdq, zpow_sub₀ (two_ne_zero), zpow_natCast, zpow_natCast,
    div_mul_eq_mul_div, div_le_iff₀ (by positivity)]
  have hnat : 2 ^ u * d ≤ n * 2 ^ v := by
    calc 2 ^ u * d ≤ 2 ^ u * 2 ^ v := Nat.mul_le_mul_left _ hv
    _ ≤ n * 2 ^ v := Nat.mul_le_mul_right _ hn
  exact_mod_cast hnat

/-- `ratExp` finds the binary exponent: `2 ^ E ≤ n / d < 2 ^ (E + 1)`. -/
theorem ratExp_spec (n d : Nat) (hn : 0 < n) (hd : 0 < d) :
    (2 : ℚ) ^ ratExp n d ≤ (n : ℚ) / d ∧ (n : ℚ) / d < (2 : ℚ) ^ (ratExp n d + 1) := by
  have ha1 : 1 ≤ bitLen n := by
    rw [bitLen_eq_size]; exact Nat.size_pos.mpr hn
  have hb1 : 1 ≤ bitLen d := by
    rw [bitLen_eq_size]; exact Nat.size_pos.mpr hd
  have hnu : n < 2 ^ bitLen n := by
    rw [bitLen_eq_size]; exact Nat.lt_size_self n
  have hnl : 2 ^ (bitLen n - 1) ≤ n := lt_bitLen.mp (by omega)
  have hdu : d < 2 ^ bitLen d := by
    rw [bitLen_eq_size]; exact Nat.lt_size_self d
  have hdl : 2 ^ (bitLen d - 1) ≤ d := lt_bitLen.mp (by omega)
  simp only [ratExp]
  by_cases h : ratGePow2 n d ((bitLen n : Int) - (bitLen d : Int)) = true
  · rw [if_pos h]
    refine ⟨(ratGePow2_iff n d hd _).mp h, ?_⟩
    have hb : ((bitLen d - 1 : Nat) : Int) = (bitLen d : Int) - 1 := by
      omega
    have hup := pow_div_lt n d (bitLen n) (bitLen d - 1) hd hnu hdl
    rw [hb] at hup
    have hexp : (bitLen n : Int) - ((bitLen d : Int) - 1) =
        (bitLen n : Int) - (bitLen d : Int) + 1 := by ring
    rwa [hexp] at hup
  · rw [if_neg h]
    constructor
    · have ha : ((bitLen n - 1 : Nat) : Int) = (bitLen n : Int) - 1 := by
        omega
      have hlo := pow_div_le n d (bitLen n - 1) (bitLen d) hd hnl hdu.le
      rw [ha] at hlo
      have hexp : (bitLen n : Int) - 1 - (bitLen d : Int) =
          (bitLen n : Int) - (bitLen d : Int) - 1 := by ring
      rwa [hexp] at hlo
    · have hnle : ¬ ((2 : ℚ) ^ ((bitLen n : Int) - (bitLen d : Int)) ≤ (n : ℚ) / d) :=
        fun hc => h ((ratGePow2_iff n d hd _).mpr hc)
      have hlt := lt_of_not_le hnle
      have hexp : (bitLen n : Int) - (bitLen d : Int) - 1 + 1 =
          (bitLen n : Int) - (bitLen d : Int) := by ring
      rwa [hexp]

/-- The central bounds of nearest rounding: the result is positive and
within relative error `2 ^ (1 - p)` of the exact value. -/
theorem roundRatNE_bounds (p n d : Nat) (hp : 1 ≤ p) (hn : 0 < n) (hd : 0 < d) :
    0 < (roundRatNE p n d).mant ∧
      (n : ℚ) / d * (1 - (2 : ℚ) ^ (1 - (p : Int))) < (roundRatNE p n d).val ∧
      (roundRatNE p n d).val ≤ (n : ℚ) / d * (1 + (2 : ℚ) ^ (1 - (p : Int))) := by
  obtain ⟨hE1, hE2⟩ := ratExp_spec n d hn hd
  have hx0 : (0 : ℚ) < (n : ℚ) / d := by positivity
  set x : ℚ := (n : ℚ) / d with hxdef
  set E := ratExp n d with hEdef
  set e : Int := E - p + 1 with hedef
  obtain ⟨hdd, hval⟩ := shiftRat_spec n d hd (-e)
  set nn := (shiftRat n d (-e)).1 with hnndef
  set dd := (shiftRat n d (-e)).2 with hdddef
  have hddq : (0 : ℚ) < (dd : ℚ) := by exact_mod_cast hdd
  have hgrid1 : (2 : ℚ) ^ ((p : Int) - 1) ≤ (nn : ℚ) / dd := by
    rw [hval]
    have hsum : (2 : ℚ) ^ ((p : Int) - 1) = (2 : ℚ) ^ E * (2 : ℚ) ^ (-e) := by
      rw [← zpow_add₀ (two_ne_zero : (2 : ℚ) ≠ 0)]
      congr 1
      omega
    rw [hsum]
    have := two_zpow_pos (-e)
    nlinarith [hE1]
  have hgrid2 : (nn : ℚ) / dd < (2 : ℚ) ^ (p : Int) := by
    rw [hval]
    have hsum : (2 : ℚ) ^ (p : Int) = (2 : ℚ) ^ (E + 1) * (2 : ℚ) ^ (-e) := by
      rw [← zpow_add₀ (two_ne_zero : (2 : ℚ) ≠ 0)]
      congr 1
      omega
    rw [hsum]
    have := two_zpow_pos (-e)
    nlinarith [hE2]
  have hone : (1 : ℚ) ≤ (nn : ℚ) / dd := by
    have h1 : (1 : ℚ) ≤ (2 : ℚ) ^ ((p : Int) - 1) := by
      apply one_le_zpow₀ (by norm_num)
      omega
    linarith
  have hddnn : dd ≤ nn := by
    rw [le_div_iff₀ hddq, one_mul] at hone
    exact_mod_cast hone
  set m := divRoundNE nn dd with hmdef
  have hm1 : nn / dd ≤ m := divRoundNE_lower nn dd
  have hm2 : m ≤ nn / dd + 1 := divRoundNE_upper nn dd
  have hmpos : 0 < m := lt_of_lt_of_le (Nat.div_pos hddnn hdd) hm1
  have hR : roundRatNE p n d = ⟨(m : Int), e⟩ := rfl
  have hRval : (roundRatNE p n d).val = (m : ℚ) * (2 : ℚ) ^ e := by
    rw [hR, GoFloat.val]
    push_cast
    ring
  have hfl : ((nn / dd : Nat) : ℚ) ≤ (nn : ℚ) / dd := by
    rw [le_div_iff₀ hddq]
    exact_mod_cast Nat.div_mul_le_self nn dd
  have hfl2 : (nn : ℚ) / dd - 1 < ((nn / dd : Nat) : ℚ) := by
    have hnat : nn < (nn / dd + 1) * dd := by
      calc nn = dd * (nn / dd) + nn % dd := (Nat.div_add_mod nn dd).symm
      _ < dd * (nn / dd) + dd := Nat.add_lt_add_left (Nat.mod_lt nn hdd) _
      _ = (nn / dd + 1) * dd := by ring
    rw [sub_lt_iff_lt_add, div_lt_iff₀ hddq]
    calc (nn : ℚ) < (((nn / dd + 1) * dd : Nat) : ℚ) := by exact_mod_cast hnat
    _ = (((nn / dd : Nat) : ℚ) + 1) * dd := by push_cast; ring
  have h2e : (2 : ℚ) ^ e ≤ x * (2 : ℚ) ^ (1 - (p : Int)) := by
    have hsum : (2 : ℚ) ^ e = (2 : ℚ) ^ E * (2 : ℚ) ^ (1 - (p : Int)) := by
      rw [← zpow_add₀ (two_ne_zero : (2 : ℚ) ≠ 0)]
      congr 1
      omega
    rw [hsum]
    have := two_zpow_pos (1 - (p : Int))
    nlinarith [hE1]
  have h2ep := two_zpow_pos e
  have hlow : x - (2 : ℚ) ^ e < (m : ℚ) * (2 : ℚ) ^ e := by
    have hm1q : ((nn / dd : Nat) : ℚ) ≤ (m : ℚ) := by exact_mod_cast hm1
    have hstep : x * (2 : ℚ) ^ (-e) - 1 < (m : ℚ) := by
      rw [← hval]
      linarith
    have hmul := mul_lt_mul_of_pos_right hstep h2ep
    calc x - (2 : ℚ) ^ e = (x * (2 : ℚ) ^ (-e) - 1) * (2 : ℚ) ^ e := by
          rw [sub_mul, mul_assoc, ← zpow_add₀ (two_ne_zero : (2 : ℚ) ≠ 0)]
          simp
    _ < (m : ℚ) * (2 : ℚ) ^ e := hmul
  have hup : (m : ℚ) * (2 : ℚ) ^ e ≤ x + (2 : ℚ) ^ e := by
    have hm2q : (m : ℚ) ≤ ((nn / dd : Nat) : ℚ) + 1 := by exact_mod_cast hm2
    have hstep : (m : ℚ) ≤ x * (2 : ℚ) ^ (-e) + 1 := by
      rw [← hval]
      linarith
    have hmul := mul_le_mul_of_nonneg_right hstep h2ep.le
    calc (m : ℚ) * (2 : ℚ) ^ e ≤ (x * (2 : ℚ) ^ (-e) + 1) * (2 : ℚ) ^ e := hmul
    _ = x + (2 : ℚ) ^ e := by
          rw [add_mul, mul_assoc, ← zpow_add₀ (two_ne_zero : (2 : ℚ) ≠ 0)]
          simp
  refine ⟨?_, ?_, ?_⟩
  · rw [hR]
    show (0 : Int) < (m : Int)
    exact_mod_cast hmpos
  · rw [hRval]
    nlinarith [h2e, hlow]
  · rw [hRval]
    nlinarith [h2e, hup]

/-- Converting a positive integer to `float64` loses at most a relative
`2 ^ (-52)`. -/
theorem float64OfNat_lower (n : Nat) (hn : 0 < n) :
    0 < (float64OfNat n).mant ∧
      (n : ℚ) * (1 - (2 : ℚ) ^ (-52 : Int)) < (float64OfNat n).val := by
  obtain ⟨hm, hlow, _⟩ := roundRatNE_bounds 53 n 1 (by norm_num) hn one_pos
  have hr : float64OfNat n = roundRatNE 53 n 1 := by
    rw [float64OfNat, if_neg (Nat.pos_iff_ne_zero.mp hn)]
  have hexp : (1 - ((53 : Nat) : Int)) = (-52 : Int) := by norm_num
  rw [hexp] at hlow
  rw [hr]
  refine ⟨hm, ?_⟩
  have hx : ((n : ℚ) / (1 : Nat)) = (n : ℚ) := by norm_num
  rw [hx] at hlow
  exact hlow

/-- Dividing a positive float by the exact float 10000.0 loses at most a
relative `2 ^ (-52)`. -/
theorem fdiv_10000_lower (a : GoFloat) (ha : 0 < a.mant) :
    0 < (a.fdiv ⟨10000, 0⟩).mant ∧
      a.val / 10000 * (1 - (2 : ℚ) ^ (-52 : Int)) < (a.fdiv ⟨10000, 0⟩).val := by
  have hane : a.mant ≠ 0 := ne_of_gt ha
  have hnpos : 0 < a.mant.natAbs := Int.natAbs_pos.mpr hane
  obtain ⟨hm, hlow, _⟩ :=
    roundRatNE_bounds 53 a.mant.natAbs (10000 : Int).natAbs (by norm_num) hnpos (by norm_num)
  have hexp : (1 - ((53 : Nat) : Int)) = (-52 : Int) := by norm_num
  rw [hexp] at hlow
  set R := roundRatNE 53 a.mant.natAbs (10000 : Int).natAbs with hRdef
  have hfd : a.fdiv ⟨10000, 0⟩ =
      ⟨a.mant.sign * (10000 : Int).sign * R.mant, R.exp + a.exp - 0⟩ := by
    rw [GoFloat.fdiv, if_neg hane]
  have hsgn : a.mant.sign * (10000 : Int).sign = 1 := by
    rw [Int.sign_eq_one_of_pos ha]
    decide
  have habs : ((a.mant.natAbs : Nat) : ℚ) = (a.mant : ℚ) := by
    rw [Int.cast_natAbs]
    exact_mod_cast abs_of_nonneg ha.le
  constructor
  · rw [hfd]
    show 0 < a.mant.sign * (10000 : Int).sign * R.mant
    rw [hsgn, one_mul]
    exact hm
  · have hvfd : (a.fdiv ⟨10000, 0⟩).val = R.val * (2 : ℚ) ^ a.exp := by
      rw [hfd, GoFloat.val, GoFloat.val]
      rw [hsgn]
      push_cast
      rw [sub_zero, zpow_add₀ (two_ne_zero : (2 : ℚ) ≠ 0)]
      ring
    have hq : a.val / 10000 = (a.mant.natAbs : ℚ) / ((10000 : Int).natAbs : ℚ) * (2 : ℚ) ^ a.exp := by
      rw [GoFloat.val, habs]
      norm_num
      ring
    rw [hvfd, hq]
    have h2a := two_zpow_pos a.exp
    nlinarith [hlow]

/-- The exact dyadic difference built inside `fsub` has value
`a.val - b.val`. -/
theorem fsub_exact_val (a b : GoFloat) :
    GoFloat.val ⟨a.mant * 2 ^ (a.exp - min a.exp b.exp).toNat -
        b.mant * 2 ^ (b.exp - min a.exp b.exp).toNat, min a.exp b.exp⟩ =
      a.val - b.val := by
  set e := min a.exp b.exp with hedef
  have hka : ((a.exp - e).toNat : Int) = a.exp - e :=
    Int.toNat_of_nonneg (sub_nonneg.mpr (min_le_left _ _))
  have hkb : ((b.exp - e).toNat : Int) = b.exp - e :=
    Int.toNat_of_nonneg (sub_nonneg.mpr (min_le_right _ _))
  rw [GoFloat.val, GoFloat.val, GoFloat.val]
  push_cast
  rw [sub_mul, mul_assoc, mul_assoc, ← zpow_natCast (2 : ℚ) (a.exp - e).toNat,
    ← zpow_natCast (2 : ℚ) (b.exp - e).toNat, hka, hkb,
    ← zpow_add₀ (two_ne_zero : (2 : ℚ) ≠ 0), ← zpow_add₀ (two_ne_zero : (2 : ℚ) ≠ 0)]
  ring_nf

/-- Rounding a negative dyadic value keeps it negative. -/
theorem roundDyadic_neg (p : Nat) (hp : 1 ≤ p) (f : GoFloat) (h : f.mant < 0) :
    (roundDyadic p f).mant < 0 := by
  have hne : f.mant ≠ 0 := ne_of_lt h
  rw [roundDyadic, if_neg hne]
  by_cases hb : bitLen f.mant.natAbs ≤ p
  · rw [if_pos hb]
    exact h
  · rw [if_neg hb]
    show (if f.mant < 0 then -(divRoundNE f.mant.natAbs (2 ^ (bitLen f.mant.natAbs - p)) : Int)
      else (divRoundNE f.mant.natAbs (2 ^ (bitLen f.mant.natAbs - p)) : Int)) < 0
    rw [if_pos h]
    have hnpos : 0 < f.mant.natAbs := Int.natAbs_pos.mpr hne
    have hlow : 2 ^ (bitLen f.mant.natAbs - 1) ≤ f.mant.natAbs := lt_bitLen.mp (by omega)
    have hple : 2 ^ (bitLen f.mant.natAbs - p) ≤ f.mant.natAbs := by
      refine le_trans (Nat.pow_le_pow_right (by norm_num) ?_) hlow
      omega
    have hdiv : 0 < f.mant.natAbs / 2 ^ (bitLen f.mant.natAbs - p) :=
      Nat.div_pos hple (by positivity)
    have hm : 0 < divRoundNE f.mant.natAbs (2 ^ (bitLen f.mant.natAbs - p)) :=
      lt_of_lt_of_le hdiv (divRoundNE_lower _ _)
    rw [neg_lt_zero]
    exact_mod_cast hm

/-- A float with a negative mantissa has a negative value. -/
theorem val_neg_of_mant_neg (f : GoFloat) (h : f.mant < 0) : f.val < 0 := by
  rw [GoFloat.val]
  exact mul_neg_of_neg_of_pos (by exact_mod_cast h) (two_zpow_pos _)

/-- Subtracting a float above 1 from the exact float 1.0 gives a negative
float. -/
theorem fsub_one_val_neg (q : GoFloat) (hq : 1 < q.val) :
    (GoFloat.fsub ⟨1, 0⟩ q).val < 0 := by
  have hres : GoFloat.fsub ⟨1, 0⟩ q =
      roundDyadic 53
        ⟨(1 : Int) * 2 ^ ((0 : Int) - min (0 : Int) q.exp).toNat -
          q.mant * 2 ^ (q.exp - min (0 : Int) q.exp).toNat, min (0 : Int) q.exp⟩ := rfl
  have hMval := fsub_exact_val ⟨1, 0⟩ q
  have hone : (GoFloat.val ⟨1, 0⟩) = 1 := by
    rw [GoFloat.val]
    norm_num
  rw [hone] at hMval
  have hMneg : (1 : Int) * 2 ^ ((0 : Int) - min (0 : Int) q.exp).toNat -
      q.mant * 2 ^ (q.exp - min (0 : Int) q.exp).toNat < 0 := by
    by_contra hM
    push_neg at hM
    have hval0 : (0 : ℚ) ≤ GoFloat.val ⟨(1 : Int) * 2 ^ ((0 : Int) - min (0 : Int) q.exp).toNat -
        q.mant * 2 ^ (q.exp - min (0 : Int) q.exp).toNat, min (0 : Int) q.exp⟩ := by
      rw [GoFloat.val]
      exact mul_nonneg (by exact_mod_cast hM) (two_zpow_pos _).le
    rw [hMval] at hval0
    linarith
  rw [hres]
  exact val_neg_of_mant_neg _ (roundDyadic_neg 53 (by norm_num) _ hMneg)

/-- Above 10000 basis points the converted multiplier is negative. -/
theorem conv_val_neg {bp : Nat} (h : 10000 < bp) :
    (convertSlippageBasisPointsToPercentage bp).val < 0 := by
  have hbp0 : 0 < bp := by omega
  obtain ⟨hfm, hflow⟩ := float64OfNat_lower bp hbp0
  obtain ⟨hqm, hqlow⟩ := fdiv_10000_lower (float64OfNat bp) hfm
  set f := float64OfNat bp with hf
  set q := f.fdiv ⟨10000, 0⟩ with hqdef
  set ε : ℚ := (2 : ℚ) ^ (-52 : Int) with hε
  have hεval : ε = 1 / 4503599627370496 := by
    rw [hε]
    norm_num [zpow_neg]
  have h1e : (0 : ℚ) ≤ 1 - ε := by rw [hεval]; norm_num
  have hval10001 : (10001 : ℚ) * (1 - ε) ≤ f.val := by
    have hb : (10001 : ℚ) ≤ (bp : ℚ) := by exact_mod_cast h
    have hmul := mul_le_mul_of_nonneg_right hb h1e
    linarith [hflow]
  have hq1 : 1 < q.val := by
    have hstep1 : (10001 : ℚ) * (1 - ε) / 10000 ≤ f.val / 10000 :=
      (div_le_div_iff_of_pos_right (by norm_num)).mpr hval10001
    have hstep2 : (10001 : ℚ) * (1 - ε) / 10000 * (1 - ε) ≤ f.val / 10000 * (1 - ε) :=
      mul_le_mul_of_nonneg_right hstep1 h1e
    have hnum : (1 : ℚ) < 10001 * (1 - ε) / 10000 * (1 - ε) := by
      rw [hεval]; norm_num
    linarith [hqlow]
  exact fsub_one_val_neg q hq1

/-! ### Claim C9 -/

/-- C9: the slippage conversion computes 1.0 minus bp divided by 10000.0
in float64 arithmetic; it maps 0 to the float 1.0, 100 to the float64
nearest 99/100 (the float literal 0.99), 10000 to the float 0.0, and every
bp above 10000 to a negative multiplier that is passed through rather than
rejected. -/
theorem basisPointsToMultiplier_spec (bp : Nat) (h : 10000 < bp) :
    convertSlippageBasisPointsToPercentage bp =
      GoFloat.fsub ⟨1, 0⟩ (GoFloat.fdiv (float64OfNat bp) ⟨10000, 0⟩) ∧
    convertSlippageBasisPointsToPercentage 0 = ⟨1, 0⟩ ∧
    convertSlippageBasisPointsToPercentage 100 = roundRatNE 53 99 100 ∧
    convertSlippageBasisPointsToPercentage 10000 = ⟨0, 0⟩ ∧
    (convertSlippageBasisPointsToPercentage bp).val < 0 :=
  ⟨rfl, by decide, by decide, by decide, conv_val_neg h⟩

/-- C9 witness: 10001 basis points yield a negative multiplier. -/
theorem basisPointsToMultiplier_spec_witness :
    10000 < 10001 ∧ (convertSlippageBasisPointsToPercentage 10001).val < 0 :=
  ⟨by norm_num, (basisPointsToMultiplier_spec 10001 (by norm_num)).2.2.2.2⟩

end PumpSdk
